import Mathlib

/-!
Shallow embedding of the todo-rs record store (src/main.rs) and proofs about
the claims of its specification.

Rust strings are modelled as lists of characters (`Str`).  All the characters
the program treats specially (`'.'`, `' '`, `'\n'`, `'-'`, `'s'`, digits) are
ASCII, so splitting a UTF-8 byte string at those bytes coincides with
splitting the character list.  Rust `char::is_whitespace` (Unicode
White_Space) is modelled on the ASCII range; non-ASCII whitespace characters
are not modelled.  `usize` is taken to be 64 bits wide.
-/

namespace Todo

/-- Rust `String` / `&str` modelled as a list of characters. -/
abbrev Str := List Char

/-- Embed a Lean string literal as a modelled string. -/
def str (s : String) : Str := s.data

/-- Rust `char::is_whitespace` restricted to the ASCII range
(U+0009..U+000D and U+0020). -/
def isWS (c : Char) : Bool :=
  c == ' ' || c == '\t' || c == '\n' || c == '\x0b' || c == '\x0c' || c == '\r'

/-- Rust `str::trim_start`. -/
def trimStart : Str → Str
  | [] => []
  | c :: cs => if isWS c then trimStart cs else c :: cs

/-- Rust `str::trim_end`. -/
def trimEnd (s : Str) : Str := (trimStart s.reverse).reverse

/-- Rust `str::trim`. -/
def trim (s : Str) : Str := trimEnd (trimStart s)

/-- Boolean list-prefix test (used to model Rust suffix operations via
reversal). -/
def isPrefixL : Str → Str → Bool
  | [], _ => true
  | _ :: _, [] => false
  | c :: cs, d :: ds => c == d && isPrefixL cs ds

/-- Rust `str::ends_with` for a pattern string. -/
def endsWith (s p : Str) : Bool := isPrefixL p.reverse s.reverse

lemma isPrefixL_length {q t : Str} (h : isPrefixL q t = true) :
    q.length ≤ t.length := by
  induction q generalizing t with
  | nil => simp
  | cons c cs ih =>
    cases t with
    | nil => simp [isPrefixL] at h
    | cons d ds =>
      simp only [isPrefixL, Bool.and_eq_true] at h
      have := ih h.2
      simp only [List.length_cons]
      omega

/-- Repeatedly remove the prefix `q` from the front of a string (the
reversed view of Rust `str::trim_end_matches`).  The structural `fuel`
argument makes the kernel able to evaluate it; `t.length` fuel is always
enough since each step consumes at least one character for nonempty `q`. -/
def dropRepsGo (q : Str) : Nat → Str → Str
  | 0, t => t
  | fuel + 1, t =>
    if isPrefixL q t then dropRepsGo q fuel (t.drop q.length) else t

/-- Repeatedly remove the prefix `q` from the front of `t`. -/
def dropReps (q t : Str) : Str := dropRepsGo q t.length t

/-- Rust `str::trim_end_matches`: repeatedly removes the suffix `p`. -/
def trimEndMatches (p s : Str) : Str := (dropReps p.reverse s.reverse).reverse

/-- Rust `str::split_once` / the two-element view of `splitn(2, sep)`:
splits at the first occurrence of `sep`, or `none` when `sep` is absent. -/
def splitOnce (sep : Char) : Str → Option (Str × Str)
  | [] => none
  | c :: cs =>
    if c == sep then some ([], cs)
    else
      match splitOnce sep cs with
      | some (a, b) => some (c :: a, b)
      | none => none

/-- Strip one trailing carriage return (the `\r` of a `\r\n` line ending). -/
def stripCR (l : Str) : Str := if l.getLast? = some '\r' then l.dropLast else l

/-- Worker for `rustLines`; `cur` holds the current line reversed. -/
def rustLinesGo (cur : Str) : Str → List Str
  | [] => if cur.isEmpty then [] else [cur.reverse]
  | c :: cs =>
    if c == '\n' then stripCR cur.reverse :: rustLinesGo [] cs
    else rustLinesGo (c :: cur) cs

/-- Rust `str::lines`: split at `\n` terminators (a terminator may be `\r\n`,
in which case the `\r` is stripped); a final segment without a terminator is
yielded verbatim; no trailing empty line. -/
def rustLines (s : Str) : List Str := rustLinesGo [] s

/-- Serialize a list of lines the way the rewrite loops do: each pushed line
is followed by a single `\n`. -/
def joinNL (ls : List Str) : Str := (ls.map (fun l => l ++ ['\n'])).flatten

/-- ASCII decimal digit test. -/
def isDigitCh (c : Char) : Bool := decide ('0' ≤ c ∧ c ≤ '9')

/-- Numeric value of a digit string (most significant first). -/
def digitsVal (s : Str) : Nat := s.foldl (fun a c => a * 10 + (c.toNat - 48)) 0

/-- Rust `str::parse::<usize>()`: an optional leading `+`, then one or more
ASCII digits, value within 64-bit `usize` range. -/
def parseUsize (s : Str) : Option Nat :=
  let t := if s.head? = some '+' then s.tail else s
  if !t.isEmpty && t.all isDigitCh then
    if digitsVal t < 2 ^ 64 then some (digitsVal t) else none
  else none

/-- Digit-by-digit rendering of a natural number; the structural `fuel`
argument (any bound strictly above `n`) keeps it kernel-evaluable. -/
def natToStrGo : Nat → Nat → Str
  | 0, _ => []
  | fuel + 1, n =>
    if n < 10 then [Nat.digitChar n]
    else natToStrGo fuel (n / 10) ++ [Nat.digitChar (n % 10)]

/-- Rust `Display` for an unsigned integer (decimal, no sign, no leading
zeros except for `0` itself). -/
def natToStr (n : Nat) : Str := natToStrGo (n + 1) n

/-- The shared leading-index parse used by `rm`/`done`/`undone` and
`find_next_index`: split the line at the first `.` and parse the part before
it (trimmed) as a `usize`. -/
def lineIndex (l : Str) : Option Nat :=
  match splitOnce '.' l with
  | some (idx, _) => parseUsize (trim idx)
  | none => none

/-! ## The record store operations, translated from src/main.rs -/

/-- The strikethrough escape `\x1b[9m` used by `parse_list_content`. -/
def ESC_STRIKE : Str := str "\x1b[9m"

/-- The reset escape `\x1b[0m` used by `parse_list_content`. -/
def ESC_RESET : Str := str "\x1b[0m"

/-- Loop body of `parse_list_content` (main.rs:150-164): for each line, split
at the first space; when both parts exist, format the line (strikethrough
when the remainder ends with `-s`) and push it followed by `\n`; lines
without a space contribute nothing. -/
def plGo : List Str → Str
  | [] => []
  | l :: ls =>
    match splitOnce ' ' l with
    | some (number, rest) =>
      let formatted :=
        if endsWith rest (str "-s") then
          number ++ ' ' ::
            (ESC_STRIKE ++ trimEnd (trimStart (trimEndMatches (str "-s") rest))
              ++ ESC_RESET)
        else number ++ ' ' :: trimStart rest
      formatted ++ '\n' :: plGo ls
    | none => plGo ls

/-- `parse_list_content` (main.rs:150-164). -/
def parse_list_content (content : Str) : Str := plGo (rustLines content)

/-- Loop of `find_next_index` (main.rs:167-179): running maximum of the
parsed leading indices, starting from 0. -/
def maxIndexGo (m : Nat) : List Str → Nat
  | [] => m
  | l :: ls =>
    match splitOnce '.' l with
    | some (idx, _) =>
      match parseUsize (trim idx) with
      | some num => maxIndexGo (if m < num then num else m) ls
      | none => maxIndexGo m ls
    | none => maxIndexGo m ls

/-- `find_next_index` (main.rs:167-179).  The source computes
`max_index + 1` in `usize` arithmetic: when `max_index` is `usize::MAX`
(a value a file line can parse to), a release build wraps the sum to 0
(a debug build panics there instead); the wrap is modelled with an explicit
`% 2 ^ 64`. -/
def find_next_index (content : Str) : Nat :=
  (maxIndexGo 0 (rustLines content) + 1) % 2 ^ 64

/-- `format!("{}. {}\n", idx, text)`. -/
def formatLine (idx : Nat) (text : Str) : Str :=
  natToStr idx ++ str ". " ++ text ++ ['\n']

/-- `append_to_list` (main.rs:182-190).  The file is opened with
`write=true, append=false, truncate=false` (main.rs:188), so the cursor is at
offset 0 and `write_all` overwrites the leading bytes of the existing
content; bytes past the written message are preserved.  The byte-level
overwrite is modelled at character level, which is exact for ASCII content. -/
def append_to_list (message content : Str) : Str :=
  let formatted := formatLine (find_next_index content) message
  formatted ++ content.drop formatted.length

/-- Loop of `remove_from_list` (main.rs:198-212): lines whose parsed leading
index equals the target are skipped (and the found flag set); lines whose
prefix before the first `.` fails to parse are neither pushed nor kept (the
`if let Ok` has no else branch); lines without a `.` are pushed verbatim. -/
def removeGo (k : Nat) : List Str → List Str × Bool
  | [] => ([], false)
  | l :: ls =>
    let res := removeGo k ls
    match splitOnce '.' l with
    | some (idx, _) =>
      match parseUsize (trim idx) with
      | some num =>
        if num = k then (res.1, true) else (l :: res.1, res.2)
      | none => (res.1, res.2)
    | none => (l :: res.1, res.2)

/-- `remove_from_list` (main.rs:193-222): on not-found it prints an error and
returns before touching the file; on found it truncates and writes the
pushed lines.  Returns the resulting file content and the found flag. -/
def remove_from_list (k : Nat) (content : Str) : Str × Bool :=
  let res := removeGo k (rustLines content)
  if res.2 then (joinNL res.1, true) else (content, false)

/-- Loop of `mark_as_done` (main.rs:230-262): a matching line is re-rendered
as `format!("{}. {}...", index_number, trimmed_rest)` with the `-s` marker
added or stripped; non-matching parsable lines and period-free lines pass
verbatim; lines whose period-prefix fails to parse are dropped. -/
def markGo (k : Nat) (done : Bool) : List Str → List Str × Bool
  | [] => ([], false)
  | l :: ls =>
    let res := markGo k done ls
    match splitOnce '.' l with
    | some (idx, r) =>
      match parseUsize (trim idx) with
      | some num =>
        if num = k then
          let trimmedRest := trimStart r
          let updated :=
            if done then
              if endsWith trimmedRest (str " -s") then
                natToStr k ++ str ". " ++ trimmedRest
              else natToStr k ++ str ". " ++ trimmedRest ++ str " -s"
            else
              if endsWith trimmedRest (str " -s") then
                natToStr k ++ str ". " ++ trimEndMatches (str " -s") trimmedRest
              else natToStr k ++ str ". " ++ trimmedRest
          (updated :: res.1, true)
        else (l :: res.1, res.2)
      | none => (res.1, res.2)
    | none => (l :: res.1, res.2)

/-- `mark_as_done` (main.rs:225-271): unlike `remove_from_list` there is no
early return on not-found — the file is truncated and rewritten with the
pushed lines unconditionally. -/
def mark_as_done (k : Nat) (done : Bool) (content : Str) : Str × Bool :=
  let res := markGo k done (rustLines content)
  (joinNL res.1, res.2)

/-- The `OpenOptions` flags passed to `get_file` (main.rs:275-290). -/
structure FileMode where
  readFlag : Bool
  writeFlag : Bool
  appendFlag : Bool
  truncateFlag : Bool
deriving DecidableEq

/-- The panic guard of `get_file` (main.rs:276-278) fires exactly when both
`write` and `append` are false. -/
def get_file_panics (m : FileMode) : Bool := !m.writeFlag && !m.appendFlag

/-- Every call of `get_file` in the program, in source order:
`set_list_length` (main.rs:135), `get_list_content` (main.rs:141),
`append_to_list` (main.rs:188), `remove_from_list` (main.rs:219),
`mark_as_done` (main.rs:268). -/
def get_file_call_sites : List FileMode :=
  [⟨false, true, false, false⟩,
   ⟨true, true, false, false⟩,
   ⟨true, true, false, false⟩,
   ⟨true, true, false, true⟩,
   ⟨true, true, false, true⟩]

/-! ## Statement-level definitions used to express the claims -/

/-- `n` copies of the done-marker suffix `" -s"`. -/
def markerReps : Nat → Str
  | 0 => []
  | n + 1 => markerReps n ++ str " -s"

/-- The text part of the rewritten matched line in `mark_as_done`:
add the marker when `done` and it is absent, strip trailing markers when
`¬done` and one is present, otherwise keep the trimmed text. -/
def markText (done : Bool) (T : Str) : Str :=
  if done then
    if endsWith T (str " -s") then T else T ++ str " -s"
  else
    if endsWith T (str " -s") then trimEndMatches (str " -s") T else T

/-- The full rewritten matched line (without its newline) in `mark_as_done`:
the parsed index re-rendered, a period and one space, then the marker-updated
trimmed text. -/
def markLineOut (k : Nat) (done : Bool) (T : Str) : Str :=
  natToStr k ++ str ". " ++ markText done T

/-- A line with no `.` at all: `split_once('.')` fails and the index-targeted
operations pass it through verbatim. -/
def noPeriodLine (l : Str) : Bool := (splitOnce '.' l).isNone

/-- A line that has a `.` but whose part before the first `.` does not parse
as a `usize`: the `if let Ok` in the rewrite loops has no else branch, so
such lines are silently dropped on rewrite. -/
def badIndexLine (l : Str) : Bool :=
  match splitOnce '.' l with
  | some (idx, _) => (parseUsize (trim idx)).isNone
  | none => false

/-- A record line (one that parses a leading index) whose index is not `k`. -/
def isRecordNot (k : Nat) (l : Str) : Bool :=
  match lineIndex l with
  | some j => decide (j ≠ k)
  | none => false

/-- Every parsed index of the file is strictly below `find_next_index`. -/
def belowNext (c : Str) : Bool :=
  (rustLines c).all fun l =>
    match lineIndex l with
    | some j => decide (j < find_next_index c)
    | none => true

/-- The file contains no carriage-return character. -/
def noCR (c : Str) : Bool := c.all (fun ch => ch != '\r')

/-- Every line of the file whose parsed leading index is `k` has nonempty
text after the period once leading whitespace is trimmed. -/
def matchedNonempty (k : Nat) (c : Str) : Bool :=
  (rustLines c).all fun l =>
    match splitOnce '.' l with
    | some (idx, r) =>
      match parseUsize (trim idx) with
      | some num => if num = k then !(trimStart r).isEmpty else true
      | none => true
    | none => true

/-- The file is in the store's serialized normal form: splitting it into
lines and re-serializing reproduces it, and no line is a `badIndexLine`
(which a rewrite would silently drop). -/
def normalStore (c : Str) : Bool :=
  decide (joinNL (rustLines c) = c) && (rustLines c).all (fun l => !badIndexLine l)

/-- One line of the Render effect as the specification words it: split at the
first space into a leading token and a remainder; no space means the line is
dropped; a remainder ending in the done-marker `-s` has the marker stripped
and the remaining text wrapped in the strikethrough escapes; otherwise the
trimmed remainder passes through. -/
def renderLineSpec (l : Str) : Option Str :=
  match splitOnce ' ' l with
  | none => none
  | some (tok, rem) =>
    if endsWith rem (str "-s") then
      some (tok ++ ' ' ::
        (ESC_STRIKE ++ trimEnd (trimStart (trimEndMatches (str "-s") rem))
          ++ ESC_RESET))
    else some (tok ++ ' ' :: trimStart rem)

/-- Render as the specification describes it: the per-line results, in file
order, each followed by a newline. -/
def renderSpec (content : Str) : Str :=
  joinNL ((rustLines content).filterMap renderLineSpec)

/-! ## Lemmas about the string primitives -/

lemma splitOnce_eq_some {sep : Char} {s a b : Str}
    (h : splitOnce sep s = some (a, b)) : s = a ++ sep :: b := by
  induction s generalizing a with
  | nil => simp [splitOnce] at h
  | cons c cs ih =>
    by_cases hc : (c == sep) = true
    · simp only [splitOnce, hc, if_true, Option.some.injEq, Prod.mk.injEq] at h
      obtain ⟨rfl, rfl⟩ := h
      simpa using beq_iff_eq.mp hc
    · simp only [splitOnce, hc, if_false, Bool.not_eq_true] at h
      cases hsp : splitOnce sep cs with
      | none => rw [hsp] at h; exact absurd h (by simp)
      | some ab =>
        obtain ⟨a', b'⟩ := ab
        rw [hsp] at h
        simp only [Option.some.injEq, Prod.mk.injEq] at h
        obtain ⟨rfl, rfl⟩ := h
        simpa using ih hsp

lemma splitOnce_mem_ne {sep : Char} {s a b : Str}
    (h : splitOnce sep s = some (a, b)) : ∀ c ∈ a, c ≠ sep := by
  induction s generalizing a with
  | nil => simp [splitOnce] at h
  | cons c cs ih =>
    by_cases hc : (c == sep) = true
    · simp only [splitOnce, hc, if_true, Option.some.injEq, Prod.mk.injEq] at h
      obtain ⟨rfl, rfl⟩ := h
      simp
    · simp only [splitOnce, hc, if_false] at h
      cases hsp : splitOnce sep cs with
      | none => rw [hsp] at h; exact absurd h (by simp)
      | some ab =>
        obtain ⟨a', b'⟩ := ab
        rw [hsp] at h
        simp only [Option.some.injEq, Prod.mk.injEq] at h
        obtain ⟨rfl, rfl⟩ := h
        intro x hx
        rcases List.mem_cons.mp hx with rfl | hx'
        · exact fun he => hc (beq_iff_eq.mpr he)
        · exact ih hsp x hx'

lemma splitOnce_eq_none {sep : Char} {s : Str}
    (h : splitOnce sep s = none) : ∀ c ∈ s, c ≠ sep := by
  induction s with
  | nil => simp
  | cons c cs ih =>
    by_cases hc : (c == sep) = true
    · simp [splitOnce, hc] at h
    · simp only [splitOnce, hc, if_false] at h
      cases hsp : splitOnce sep cs with
      | none =>
        intro x hx
        rcases List.mem_cons.mp hx with rfl | hx'
        · exact fun he => hc (beq_iff_eq.mpr he)
        · exact ih hsp x hx'
      | some ab => obtain ⟨a', b'⟩ := ab; rw [hsp] at h; exact absurd h (by simp)

lemma splitOnce_append {sep : Char} {p : Str} (rest : Str)
    (h : ∀ c ∈ p, c ≠ sep) : splitOnce sep (p ++ sep :: rest) = some (p, rest) := by
  induction p with
  | nil => simp [splitOnce]
  | cons c cs ih =>
    have hc : (c == sep) = false := beq_eq_false_iff_ne.mpr (h c (by simp))
    have ih' := ih (fun x hx => h x (List.mem_cons_of_mem _ hx))
    simp [splitOnce, hc, ih']

lemma trimStart_cons_ws {c : Char} (s : Str) (h : isWS c = true) :
    trimStart (c :: s) = trimStart s := by simp [trimStart, h]

lemma trimStart_cons_not_ws {c : Char} (s : Str) (h : isWS c = false) :
    trimStart (c :: s) = c :: s := by simp [trimStart, h]

lemma trimStart_head_not_ws {s t : Str} {c : Char}
    (h : trimStart s = c :: t) : isWS c = false := by
  induction s with
  | nil => simp [trimStart] at h
  | cons d ds ih =>
    cases hd : isWS d with
    | true => rw [trimStart_cons_ws _ hd] at h; exact ih h
    | false =>
      rw [trimStart_cons_not_ws _ hd] at h
      cases h
      exact hd

lemma trimStart_idem (s : Str) : trimStart (trimStart s) = trimStart s := by
  induction s with
  | nil => rfl
  | cons c cs ih =>
    cases hc : isWS c with
    | true => rw [trimStart_cons_ws _ hc]; exact ih
    | false => rw [trimStart_cons_not_ws _ hc, trimStart_cons_not_ws _ hc]

lemma trimStart_suffix (s : Str) : trimStart s <:+ s := by
  induction s with
  | nil => exact List.suffix_refl []
  | cons c cs ih =>
    cases hc : isWS c with
    | true =>
      rw [trimStart_cons_ws _ hc]
      exact ih.trans (List.suffix_cons c cs)
    | false => rw [trimStart_cons_not_ws _ hc]

lemma trimStart_no_ws {s : Str} (h : ∀ c ∈ s, isWS c = false) :
    trimStart s = s := by
  cases s with
  | nil => rfl
  | cons c cs => exact trimStart_cons_not_ws _ (h c (by simp))

lemma trimEnd_no_ws {s : Str} (h : ∀ c ∈ s, isWS c = false) : trimEnd s = s := by
  unfold trimEnd
  rw [trimStart_no_ws (fun c hc => h c (List.mem_reverse.mp hc)),
    List.reverse_reverse]

lemma trim_no_ws {s : Str} (h : ∀ c ∈ s, isWS c = false) : trim s = s := by
  unfold trim
  rw [trimStart_no_ws h, trimEnd_no_ws h]

lemma isPrefixL_append_self (q t : Str) : isPrefixL q (q ++ t) = true := by
  induction q with
  | nil => rfl
  | cons c cs ih => simp [isPrefixL, ih]

lemma isPrefixL_drop {q t : Str} (h : isPrefixL q t = true) :
    q ++ t.drop q.length = t := by
  induction q generalizing t with
  | nil => simp
  | cons c cs ih =>
    cases t with
    | nil => simp [isPrefixL] at h
    | cons d ds =>
      simp only [isPrefixL, Bool.and_eq_true, beq_iff_eq] at h
      obtain ⟨rfl, h2⟩ := h
      simpa [List.length_cons, List.drop_succ_cons] using ih h2

lemma endsWith_append_self (x p : Str) : endsWith (x ++ p) p = true := by
  unfold endsWith
  rw [List.reverse_append]
  exact isPrefixL_append_self _ _

lemma endsWith_exists {s p : Str} (h : endsWith s p = true) :
    ∃ x, s = x ++ p := by
  unfold endsWith at h
  have h2 := isPrefixL_drop h
  refine ⟨(s.reverse.drop p.reverse.length).reverse, ?_⟩
  have h3 := congrArg List.reverse h2
  simpa [List.reverse_append] using h3.symm

lemma dropRepsGo_stop {q : Str} (fuel : Nat) {t : Str}
    (h : isPrefixL q t = false) : dropRepsGo q fuel t = t := by
  cases fuel with
  | zero => rfl
  | succ n => simp [dropRepsGo, h]

lemma isPrefixL_nil_false {q : Str} (hq : q ≠ []) : isPrefixL q [] = false := by
  cases q with
  | nil => exact absurd rfl hq
  | cons a as => rfl

lemma dropRepsGo_fuel {q : Str} (hq : q ≠ []) :
    ∀ fuel fuel' t, t.length ≤ fuel → t.length ≤ fuel' →
      dropRepsGo q fuel t = dropRepsGo q fuel' t := by
  intro fuel
  induction fuel with
  | zero =>
    intro fuel' t ht _
    have hnil : t = [] := by
      cases t with
      | nil => rfl
      | cons a as => simp at ht
    subst hnil
    rw [dropRepsGo_stop _ (isPrefixL_nil_false hq),
      dropRepsGo_stop _ (isPrefixL_nil_false hq)]
  | succ n ih =>
    intro fuel' t ht ht'
    cases hp : isPrefixL q t with
    | false => rw [dropRepsGo_stop _ hp, dropRepsGo_stop _ hp]
    | true =>
      cases fuel' with
      | zero =>
        have hnil : t = [] := by
          cases t with
          | nil => rfl
          | cons a as => simp at ht'
        subst hnil
        rw [isPrefixL_nil_false hq] at hp
        exact absurd hp (by simp)
      | succ m =>
        have h1 := isPrefixL_length hp
        have h2 : 0 < q.length := by
          cases q with
          | nil => exact absurd rfl hq
          | cons a as => simp
        simp only [dropRepsGo, hp, if_true]
        apply ih
        · simp only [List.length_drop]; omega
        · simp only [List.length_drop]; omega

lemma dropReps_stop {q t : Str} (h : isPrefixL q t = false) :
    dropReps q t = t := dropRepsGo_stop _ h

lemma dropReps_append {q : Str} (hq : q ≠ []) (t : Str) :
    dropReps q (q ++ t) = dropReps q t := by
  have h2 : 0 < q.length := by
    cases q with
    | nil => exact absurd rfl hq
    | cons a as => simp
  obtain ⟨m, hm⟩ : ∃ m, (q ++ t).length = m + 1 := by
    refine ⟨(q ++ t).length - 1, ?_⟩
    simp only [List.length_append]
    omega
  unfold dropReps
  rw [hm]
  simp only [dropRepsGo, isPrefixL_append_self, if_true, List.drop_left]
  apply dropRepsGo_fuel hq
  · have := congrArg id hm
    simp only [List.length_append] at hm
    omega
  · exact le_refl _

lemma dropRepsGo_stop_result {q : Str} (hq : q ≠ []) :
    ∀ fuel t, t.length ≤ fuel → isPrefixL q (dropRepsGo q fuel t) = false := by
  intro fuel
  induction fuel with
  | zero =>
    intro t ht
    have hnil : t = [] := by
      cases t with
      | nil => rfl
      | cons a as => simp at ht
    subst hnil
    exact isPrefixL_nil_false hq
  | succ n ih =>
    intro t ht
    cases hp : isPrefixL q t with
    | false => rwa [dropRepsGo_stop _ hp]
    | true =>
      have h1 := isPrefixL_length hp
      have h2 : 0 < q.length := by
        cases q with
        | nil => exact absurd rfl hq
        | cons a as => simp
      simp only [dropRepsGo, hp, if_true]
      apply ih
      simp only [List.length_drop]
      omega

lemma dropReps_no_more {q : Str} (hq : q ≠ []) (t : Str) :
    isPrefixL q (dropReps q t) = false :=
  dropRepsGo_stop_result hq _ _ (le_refl _)

lemma dropRepsGo_suffix (q : Str) : ∀ fuel t, dropRepsGo q fuel t <:+ t := by
  intro fuel
  induction fuel with
  | zero => intro t; exact List.suffix_refl t
  | succ n ih =>
    intro t
    cases hp : isPrefixL q t with
    | false => rw [dropRepsGo_stop _ hp]
    | true =>
      simp only [dropRepsGo, hp, if_true]
      exact (ih _).trans (List.drop_suffix _ _)

lemma dropReps_suffix (q t : Str) : dropReps q t <:+ t := dropRepsGo_suffix q _ t

lemma reverse_ne_nil {p : Str} (hp : p ≠ []) : p.reverse ≠ [] := by
  intro h
  exact hp (by simpa using congrArg List.reverse h)

lemma trimEndMatches_of_not_endsWith {p s : Str} (h : endsWith s p = false) :
    trimEndMatches p s = s := by
  unfold trimEndMatches
  unfold endsWith at h
  rw [dropReps_stop h, List.reverse_reverse]

lemma trimEndMatches_append {p : Str} (hp : p ≠ []) (t : Str) :
    trimEndMatches p (t ++ p) = trimEndMatches p t := by
  unfold trimEndMatches
  rw [List.reverse_append, dropReps_append (reverse_ne_nil hp)]

lemma endsWith_trimEndMatches {p : Str} (hp : p ≠ []) (s : Str) :
    endsWith (trimEndMatches p s) p = false := by
  unfold trimEndMatches endsWith
  rw [List.reverse_reverse]
  exact dropReps_no_more (reverse_ne_nil hp) _

lemma trimEndMatches_isPrefixOf (p s : Str) : trimEndMatches p s <+: s := by
  obtain ⟨x, hx⟩ := dropReps_suffix p.reverse s.reverse
  exact ⟨x.reverse, by simpa [List.reverse_append] using congrArg List.reverse hx⟩

/-! ## Lemmas about digits, number rendering and parsing -/

lemma digitChar_props {d : Nat} (h : d < 10) :
    isDigitCh (Nat.digitChar d) = true ∧ isWS (Nat.digitChar d) = false ∧
    (Nat.digitChar d).toNat = 48 + d ∧ Nat.digitChar d ≠ '.' ∧
    Nat.digitChar d ≠ '+' ∧ Nat.digitChar d ≠ '\n' ∧ Nat.digitChar d ≠ '\r' := by
  interval_cases d <;> exact ⟨rfl, rfl, rfl, by decide, by decide, by decide, by decide⟩

lemma natToStrGo_digits :
    ∀ fuel n, n < fuel → ∀ c ∈ natToStrGo fuel n, ∃ d, d < 10 ∧ c = Nat.digitChar d := by
  intro fuel
  induction fuel with
  | zero => intro n h; omega
  | succ f ih =>
    intro n h c hc
    by_cases h10 : n < 10
    · simp only [natToStrGo, h10, if_true, List.mem_singleton] at hc
      exact ⟨n, h10, hc⟩
    · simp only [natToStrGo, h10, if_false] at hc
      rcases List.mem_append.mp hc with h1 | h2
      · have hlt : n / 10 < f := by
          have := Nat.div_lt_self (show 0 < n by omega) (show 1 < 10 by omega)
          omega
        exact ih (n / 10) hlt c h1
      · simp only [List.mem_singleton] at h2
        exact ⟨n % 10, Nat.mod_lt _ (by omega), h2⟩

lemma natToStrGo_ne_nil : ∀ fuel n, n < fuel → natToStrGo fuel n ≠ [] := by
  intro fuel
  induction fuel with
  | zero => intro n h; omega
  | succ f _ =>
    intro n _
    by_cases h10 : n < 10
    · simp [natToStrGo, h10]
    · simp [natToStrGo, h10]

lemma digitsVal_append (xs : Str) (c : Char) :
    digitsVal (xs ++ [c]) = digitsVal xs * 10 + (c.toNat - 48) := by
  unfold digitsVal
  rw [List.foldl_append]
  rfl

lemma digitsVal_natToStrGo : ∀ fuel n, n < fuel → digitsVal (natToStrGo fuel n) = n := by
  intro fuel
  induction fuel with
  | zero => intro n h; omega
  | succ f ih =>
    intro n h
    by_cases h10 : n < 10
    · have ht := (digitChar_props h10).2.2.1
      simp only [natToStrGo, h10, if_true]
      show digitsVal [Nat.digitChar n] = n
      unfold digitsVal
      simp [List.foldl, ht]
    · have hlt : n / 10 < f := by
        have := Nat.div_lt_self (show 0 < n by omega) (show 1 < 10 by omega)
        omega
      have ht := (digitChar_props (Nat.mod_lt n (show 0 < 10 by omega))).2.2.1
      simp only [natToStrGo, h10, if_false]
      rw [digitsVal_append, ih (n / 10) hlt, ht]
      omega

lemma natToStr_digits {n : Nat} : ∀ c ∈ natToStr n, ∃ d, d < 10 ∧ c = Nat.digitChar d :=
  natToStrGo_digits _ _ (by omega)

lemma natToStr_ne_nil (n : Nat) : natToStr n ≠ [] := natToStrGo_ne_nil _ _ (by omega)

lemma digitsVal_natToStr (n : Nat) : digitsVal (natToStr n) = n :=
  digitsVal_natToStrGo _ _ (by omega)

lemma natToStr_no_ws {n : Nat} : ∀ c ∈ natToStr n, isWS c = false := by
  intro c hc
  obtain ⟨d, hd, rfl⟩ := natToStr_digits c hc
  exact (digitChar_props hd).2.1

lemma natToStr_ne_period {n : Nat} : ∀ c ∈ natToStr n, c ≠ '.' := by
  intro c hc
  obtain ⟨d, hd, rfl⟩ := natToStr_digits c hc
  exact (digitChar_props hd).2.2.2.1

lemma trim_natToStr (n : Nat) : trim (natToStr n) = natToStr n :=
  trim_no_ws natToStr_no_ws

lemma natToStr_all_digit (n : Nat) : (natToStr n).all isDigitCh = true := by
  rw [List.all_eq_true]
  intro c hc
  obtain ⟨d, hd, rfl⟩ := natToStr_digits c hc
  exact (digitChar_props hd).1

lemma parseUsize_natToStr {n : Nat} (h : n < 2 ^ 64) :
    parseUsize (natToStr n) = some n := by
  have hplus : ¬((natToStr n).head? = some '+') := by
    cases hs : natToStr n with
    | nil => exact absurd hs (natToStr_ne_nil n)
    | cons c cs =>
      have hc : c ∈ natToStr n := by rw [hs]; simp
      obtain ⟨d, hd, rfl⟩ := natToStr_digits c hc
      simp only [List.head?]
      intro he
      exact (digitChar_props hd).2.2.2.2.1 (by injection he)
  have hemp : (natToStr n).isEmpty = false := by
    cases hs : natToStr n with
    | nil => exact absurd hs (natToStr_ne_nil n)
    | cons c cs => rfl
  simp only [parseUsize, if_neg hplus, hemp, natToStr_all_digit,
    Bool.not_false, Bool.and_self, if_true, digitsVal_natToStr, if_pos h]

lemma parseUsize_lt {s : Str} {v : Nat} (h : parseUsize s = some v) : v < 2 ^ 64 := by
  simp only [parseUsize] at h
  set t := if s.head? = some '+' then s.tail else s with ht
  by_cases hc : (!t.isEmpty && t.all isDigitCh) = true
  · rw [if_pos hc] at h
    by_cases hlt : digitsVal t < 2 ^ 64
    · rw [if_pos hlt] at h
      simp only [Option.some.injEq] at h
      omega
    · rw [if_neg hlt] at h
      exact absurd h (by simp)
  · rw [if_neg hc] at h
    exact absurd h (by simp)

/-! ## Repetitions of the done-marker (for the strip-all-copies claim) -/

lemma trimEndMatches_markerReps (t : Str) :
    ∀ n, trimEndMatches (str " -s") (t ++ markerReps n) = trimEndMatches (str " -s") t := by
  intro n
  induction n with
  | zero => simp [markerReps]
  | succ m ih =>
    show trimEndMatches (str " -s") (t ++ (markerReps m ++ str " -s")) = _
    rw [← List.append_assoc, trimEndMatches_append (by decide), ih]

lemma endsWith_markerReps (t : Str) {n : Nat} (h : 1 ≤ n) :
    endsWith (t ++ markerReps n) (str " -s") = true := by
  obtain ⟨m, rfl⟩ : ∃ m, n = m + 1 := ⟨n - 1, by omega⟩
  show endsWith (t ++ (markerReps m ++ str " -s")) (str " -s") = true
  rw [← List.append_assoc]
  exact endsWith_append_self _ _

/-! ## Lemmas about line splitting and serialization -/

lemma stripCR_subset {l : Str} {c : Char} (h : c ∈ stripCR l) : c ∈ l := by
  unfold stripCR at h
  split at h
  · exact List.dropLast_subset l h
  · exact h

lemma stripCR_of_getLast {l : Str} (h : l.getLast? ≠ some '\r') : stripCR l = l := by
  unfold stripCR
  rw [if_neg h]

lemma rustLinesGo_append_line {l : Str} (hl : '\n' ∉ l) :
    ∀ cur rest, rustLinesGo cur (l ++ '\n' :: rest)
      = stripCR (cur.reverse ++ l) :: rustLinesGo [] rest := by
  induction l with
  | nil => intro cur rest; simp [rustLinesGo]
  | cons c cs ih =>
    intro cur rest
    have hc : (c == '\n') = false :=
      beq_eq_false_iff_ne.mpr (fun he => hl (he ▸ List.mem_cons_self c cs))
    show rustLinesGo cur (c :: (cs ++ '\n' :: rest)) = _
    simp only [rustLinesGo, hc, Bool.false_eq_true, if_false]
    rw [ih (fun hm => hl (List.mem_cons_of_mem _ hm))]
    simp [List.reverse_cons, List.append_assoc]

lemma rustLines_joinNL {ls : List Str}
    (h : ∀ l ∈ ls, '\n' ∉ l ∧ l.getLast? ≠ some '\r') :
    rustLines (joinNL ls) = ls := by
  induction ls with
  | nil => rfl
  | cons l ls ih =>
    have h1 := h l (by simp)
    have hjoin : joinNL (l :: ls) = l ++ '\n' :: joinNL ls := by
      simp [joinNL]
    unfold rustLines
    rw [hjoin, rustLinesGo_append_line h1.1]
    rw [show ([] : Str).reverse ++ l = l by simp, stripCR_of_getLast h1.2]
    exact congrArg (l :: ·) (ih fun x hx => h x (by simp [hx]))

lemma rustLinesGo_no_newline :
    ∀ {s cur : Str}, '\n' ∉ cur → ∀ l ∈ rustLinesGo cur s, '\n' ∉ l := by
  intro s
  induction s with
  | nil =>
    intro cur hcur l hl
    unfold rustLinesGo at hl
    split at hl
    · simp at hl
    · simp only [List.mem_singleton] at hl
      subst hl
      simpa [List.mem_reverse] using hcur
  | cons c cs ih =>
    intro cur hcur l hl
    unfold rustLinesGo at hl
    by_cases hc : (c == '\n') = true
    · rw [if_pos hc] at hl
      rcases List.mem_cons.mp hl with rfl | hl'
      · intro hmem
        exact hcur (List.mem_reverse.mp (stripCR_subset hmem))
      · exact ih (by simp) l hl'
    · rw [if_neg hc] at hl
      refine ih (fun hm => ?_) l hl
      rcases List.mem_cons.mp hm with he | hm'
      · exact hc (beq_iff_eq.mpr he.symm)
      · exact hcur hm'

lemma rustLines_no_newline {s : Str} : ∀ l ∈ rustLines s, '\n' ∉ l :=
  rustLinesGo_no_newline (by simp)

lemma rustLinesGo_chars :
    ∀ {s cur : Str}, ∀ l ∈ rustLinesGo cur s, ∀ c ∈ l, c ∈ cur ∨ c ∈ s := by
  intro s
  induction s with
  | nil =>
    intro cur l hl c hc
    unfold rustLinesGo at hl
    split at hl
    · simp at hl
    · simp only [List.mem_singleton] at hl
      subst hl
      exact .inl (List.mem_reverse.mp hc)
  | cons d ds ih =>
    intro cur l hl c hc
    unfold rustLinesGo at hl
    by_cases hd : (d == '\n') = true
    · rw [if_pos hd] at hl
      rcases List.mem_cons.mp hl with rfl | hl'
      · exact .inl (List.mem_reverse.mp (stripCR_subset hc))
      · rcases ih l hl' c hc with h1 | h2
        · simp at h1
        · exact .inr (List.mem_cons_of_mem _ h2)
    · rw [if_neg hd] at hl
      rcases ih l hl c hc with h1 | h2
      · rcases List.mem_cons.mp h1 with rfl | h1'
        · exact .inr (List.mem_cons_self _ _)
        · exact .inl h1'
      · exact .inr (List.mem_cons_of_mem _ h2)

lemma rustLines_chars {s : Str} : ∀ l ∈ rustLines s, ∀ c ∈ l, c ∈ s := by
  intro l hl c hc
  rcases rustLinesGo_chars l hl c hc with h1 | h2
  · simp at h1
  · exact h2

/-! ## Step equations for the rewrite loops -/

lemma mem_of_getLast' {l : Str} {c : Char} (h : l.getLast? = some c) : c ∈ l := by
  induction l with
  | nil => simp at h
  | cons a as ih =>
    cases as with
    | nil =>
      simp only [List.getLast?_singleton, Option.some.injEq] at h
      simp [h]
    | cons b bs =>
      rw [List.getLast?_cons_cons] at h
      exact List.mem_cons_of_mem _ (ih h)

lemma markGo_cons_noperiod {k : Nat} {d : Bool} {l : Str} (ls : List Str)
    (hsp : splitOnce '.' l = none) :
    markGo k d (l :: ls) = (l :: (markGo k d ls).1, (markGo k d ls).2) := by
  simp [markGo, hsp]

lemma markGo_cons_bad {k : Nat} {d : Bool} {l idx r : Str} (ls : List Str)
    (hsp : splitOnce '.' l = some (idx, r)) (hp : parseUsize (trim idx) = none) :
    markGo k d (l :: ls) = markGo k d ls := by
  simp [markGo, hsp, hp]

lemma markGo_cons_other {k : Nat} {d : Bool} {l idx r : Str} {num : Nat} (ls : List Str)
    (hsp : splitOnce '.' l = some (idx, r)) (hp : parseUsize (trim idx) = some num)
    (hne : num ≠ k) :
    markGo k d (l :: ls) = (l :: (markGo k d ls).1, (markGo k d ls).2) := by
  simp [markGo, hsp, hp, hne]

lemma markGo_cons_matched {k : Nat} {d : Bool} {l idx r : Str} (ls : List Str)
    (hsp : splitOnce '.' l = some (idx, r)) (hp : parseUsize (trim idx) = some k) :
    markGo k d (l :: ls) = (markLineOut k d (trimStart r) :: (markGo k d ls).1, true) := by
  by_cases hd : d = true <;>
    by_cases he : endsWith (trimStart r) (str " -s") = true <;>
      simp [markGo, hsp, hp, hd, he, markLineOut, markText, List.append_assoc]

lemma removeGo_cons_noperiod {k : Nat} {l : Str} (ls : List Str)
    (hsp : splitOnce '.' l = none) :
    removeGo k (l :: ls) = (l :: (removeGo k ls).1, (removeGo k ls).2) := by
  simp [removeGo, hsp]

lemma removeGo_cons_bad {k : Nat} {l idx r : Str} (ls : List Str)
    (hsp : splitOnce '.' l = some (idx, r)) (hp : parseUsize (trim idx) = none) :
    removeGo k (l :: ls) = removeGo k ls := by
  simp [removeGo, hsp, hp]

lemma removeGo_cons_other {k : Nat} {l idx r : Str} {num : Nat} (ls : List Str)
    (hsp : splitOnce '.' l = some (idx, r)) (hp : parseUsize (trim idx) = some num)
    (hne : num ≠ k) :
    removeGo k (l :: ls) = (l :: (removeGo k ls).1, (removeGo k ls).2) := by
  simp [removeGo, hsp, hp, hne]

lemma removeGo_cons_matched {k : Nat} {l idx r : Str} (ls : List Str)
    (hsp : splitOnce '.' l = some (idx, r)) (hp : parseUsize (trim idx) = some k) :
    removeGo k (l :: ls) = ((removeGo k ls).1, true) := by
  simp [removeGo, hsp, hp]

/-! ## The canonical rewritten line -/

lemma splitOnce_canonLine (k : Nat) (X : Str) :
    splitOnce '.' (natToStr k ++ (str ". " ++ X)) = some (natToStr k, ' ' :: X) := by
  have h2 : str ". " = ['.', ' '] := rfl
  rw [h2]
  exact splitOnce_append _ natToStr_ne_period

lemma splitOnce_canonLine' (k : Nat) (X : Str) :
    splitOnce '.' (natToStr k ++ str ". " ++ X) = some (natToStr k, ' ' :: X) := by
  rw [List.append_assoc]
  exact splitOnce_canonLine k X

lemma noPeriodLine_markLineOut (k : Nat) (d : Bool) (T : Str) :
    noPeriodLine (markLineOut k d T) = false := by
  simp [noPeriodLine, markLineOut, splitOnce_canonLine]

lemma badIndexLine_markLineOut {k : Nat} (hk : k < 2 ^ 64) (d : Bool) (T : Str) :
    badIndexLine (markLineOut k d T) = false := by
  simp [badIndexLine, markLineOut, splitOnce_canonLine, trim_natToStr,
    parseUsize_natToStr hk]

/-! ## Frame lemmas: which lines the rewrite loops keep -/

lemma markGo_filter_noPeriod (k : Nat) (d : Bool) (L : List Str) :
    (markGo k d L).1.filter noPeriodLine = L.filter noPeriodLine := by
  induction L with
  | nil => rfl
  | cons l ls ih =>
    cases hsp : splitOnce '.' l with
    | none =>
      rw [markGo_cons_noperiod ls hsp]
      have hnp : noPeriodLine l = true := by simp [noPeriodLine, hsp]
      dsimp only
      simp [List.filter_cons, hnp, ih]
    | some ab =>
      obtain ⟨idx, r⟩ := ab
      have hnp : noPeriodLine l = false := by simp [noPeriodLine, hsp]
      cases hp : parseUsize (trim idx) with
      | none =>
        rw [markGo_cons_bad ls hsp hp]
        simp [List.filter_cons, hnp, ih]
      | some num =>
        by_cases hne : num = k
        · subst hne
          rw [markGo_cons_matched ls hsp hp]
          dsimp only
          simp [List.filter_cons, hnp, noPeriodLine_markLineOut, ih]
        · rw [markGo_cons_other ls hsp hp hne]
          dsimp only
          simp [List.filter_cons, hnp, ih]

lemma markGo_filter_bad (k : Nat) (d : Bool) (L : List Str) :
    (markGo k d L).1.filter badIndexLine = [] := by
  induction L with
  | nil => rfl
  | cons l ls ih =>
    cases hsp : splitOnce '.' l with
    | none =>
      rw [markGo_cons_noperiod ls hsp]
      have hb : badIndexLine l = false := by simp [badIndexLine, hsp]
      dsimp only
      simp [List.filter_cons, hb, ih]
    | some ab =>
      obtain ⟨idx, r⟩ := ab
      cases hp : parseUsize (trim idx) with
      | none => rw [markGo_cons_bad ls hsp hp]; exact ih
      | some num =>
        by_cases hne : num = k
        · subst hne
          rw [markGo_cons_matched ls hsp hp]
          dsimp only
          simp [List.filter_cons, badIndexLine_markLineOut (parseUsize_lt hp), ih]
        · rw [markGo_cons_other ls hsp hp hne]
          have hb : badIndexLine l = false := by simp [badIndexLine, hsp, hp]
          dsimp only
          simp [List.filter_cons, hb, ih]

lemma removeGo_filter_noPeriod (k : Nat) (L : List Str) :
    (removeGo k L).1.filter noPeriodLine = L.filter noPeriodLine := by
  induction L with
  | nil => rfl
  | cons l ls ih =>
    cases hsp : splitOnce '.' l with
    | none =>
      rw [removeGo_cons_noperiod ls hsp]
      have hnp : noPeriodLine l = true := by simp [noPeriodLine, hsp]
      dsimp only
      simp [List.filter_cons, hnp, ih]
    | some ab =>
      obtain ⟨idx, r⟩ := ab
      have hnp : noPeriodLine l = false := by simp [noPeriodLine, hsp]
      cases hp : parseUsize (trim idx) with
      | none =>
        rw [removeGo_cons_bad ls hsp hp]
        simp [List.filter_cons, hnp, ih]
      | some num =>
        by_cases hne : num = k
        · subst hne
          rw [removeGo_cons_matched ls hsp hp]
          dsimp only
          simp [List.filter_cons, hnp, ih]
        · rw [removeGo_cons_other ls hsp hp hne]
          dsimp only
          simp [List.filter_cons, hnp, ih]

lemma removeGo_filter_bad (k : Nat) (L : List Str) :
    (removeGo k L).1.filter badIndexLine = [] := by
  induction L with
  | nil => rfl
  | cons l ls ih =>
    cases hsp : splitOnce '.' l with
    | none =>
      rw [removeGo_cons_noperiod ls hsp]
      have hb : badIndexLine l = false := by simp [badIndexLine, hsp]
      dsimp only
      simp [List.filter_cons, hb, ih]
    | some ab =>
      obtain ⟨idx, r⟩ := ab
      cases hp : parseUsize (trim idx) with
      | none => rw [removeGo_cons_bad ls hsp hp]; exact ih
      | some num =>
        by_cases hne : num = k
        · subst hne
          rw [removeGo_cons_matched ls hsp hp]
          exact ih
        · rw [removeGo_cons_other ls hsp hp hne]
          have hb : badIndexLine l = false := by simp [badIndexLine, hsp, hp]
          dsimp only
          simp [List.filter_cons, hb, ih]

lemma removeGo_filter_record (k : Nat) (L : List Str) :
    (removeGo k L).1.filter (isRecordNot k) = L.filter (isRecordNot k) := by
  induction L with
  | nil => rfl
  | cons l ls ih =>
    cases hsp : splitOnce '.' l with
    | none =>
      rw [removeGo_cons_noperiod ls hsp]
      have hr : isRecordNot k l = false := by simp [isRecordNot, lineIndex, hsp]
      dsimp only
      simp [List.filter_cons, hr, ih]
    | some ab =>
      obtain ⟨idx, r⟩ := ab
      cases hp : parseUsize (trim idx) with
      | none =>
        rw [removeGo_cons_bad ls hsp hp]
        have hr : isRecordNot k l = false := by simp [isRecordNot, lineIndex, hsp, hp]
        simp [List.filter_cons, hr, ih]
      | some num =>
        by_cases hne : num = k
        · rw [hne] at hp
          rw [removeGo_cons_matched ls hsp hp]
          have hr : isRecordNot k l = false := by
            simp [isRecordNot, lineIndex, hsp, hp]
          dsimp only
          simp [List.filter_cons, hr, ih]
        · rw [removeGo_cons_other ls hsp hp hne]
          have hr : isRecordNot k l = true := by
            simp [isRecordNot, lineIndex, hsp, hp, hne]
          dsimp only
          simp [List.filter_cons, hr, ih]

/-! ## The next-index computation -/

lemma maxIndexGo_eq (L : List Str) :
    ∀ m, maxIndexGo m L = max m ((L.filterMap lineIndex).foldr max 0) := by
  induction L with
  | nil => intro m; simp [maxIndexGo]
  | cons l ls ih =>
    intro m
    cases hsp : splitOnce '.' l with
    | none =>
      have hli : lineIndex l = none := by simp [lineIndex, hsp]
      simp only [maxIndexGo, hsp]
      rw [ih m, List.filterMap_cons, hli]
    | some ab =>
      obtain ⟨idx, r⟩ := ab
      cases hp : parseUsize (trim idx) with
      | none =>
        have hli : lineIndex l = none := by simp [lineIndex, hsp, hp]
        simp only [maxIndexGo, hsp, hp]
        rw [ih m, List.filterMap_cons, hli]
      | some num =>
        have hli : lineIndex l = some num := by simp [lineIndex, hsp, hp]
        simp only [maxIndexGo, hsp, hp]
        rw [ih _]
        have hmax : (if m < num then num else m) = max m num := by
          rcases Nat.lt_or_ge m num with h | h
          · rw [if_pos h, Nat.max_eq_right (Nat.le_of_lt h)]
          · rw [if_neg (Nat.not_lt.mpr h), Nat.max_eq_left h]
        rw [hmax, List.filterMap_cons, hli, List.foldr_cons]
        exact Nat.max_assoc m num _

lemma mem_le_foldr_max {a : Nat} : ∀ {L : List Nat}, a ∈ L → a ≤ L.foldr max 0 := by
  intro L h
  induction L with
  | nil => simp at h
  | cons b bs ih =>
    rcases List.mem_cons.mp h with rfl | h'
    · exact Nat.le_max_left _ _
    · exact Nat.le_trans (ih h') (Nat.le_max_right _ _)

/-! ## Render refinement -/

lemma plGo_eq (L : List Str) : plGo L = joinNL (L.filterMap renderLineSpec) := by
  induction L with
  | nil => rfl
  | cons l ls ih =>
    cases hsp : splitOnce ' ' l with
    | none => simp [plGo, renderLineSpec, hsp, ih]
    | some ab =>
      obtain ⟨tok, rem⟩ := ab
      by_cases hew : endsWith rem (str "-s") = true
      · simp [plGo, renderLineSpec, hsp, hew, ih, joinNL]
      · simp [plGo, renderLineSpec, hsp, hew, ih, joinNL]

/-! ## The not-found path of mark_as_done -/

lemma markGo_not_found {k : Nat} {d : Bool} {L : List Str}
    (hbad : ∀ l ∈ L, badIndexLine l = false)
    (h2 : (markGo k d L).2 = false) : (markGo k d L).1 = L := by
  induction L with
  | nil => rfl
  | cons l ls ih =>
    cases hsp : splitOnce '.' l with
    | none =>
      rw [markGo_cons_noperiod ls hsp] at h2 ⊢
      dsimp only at h2 ⊢
      rw [ih (fun x hx => hbad x (List.mem_cons_of_mem _ hx)) h2]
    | some ab =>
      obtain ⟨idx, r⟩ := ab
      cases hp : parseUsize (trim idx) with
      | none =>
        have hb := hbad l (List.mem_cons_self _ _)
        rw [show badIndexLine l = true from by simp [badIndexLine, hsp, hp]] at hb
        exact absurd hb (by simp)
      | some num =>
        by_cases hne : num = k
        · subst hne
          rw [markGo_cons_matched ls hsp hp] at h2
          simp at h2
        · rw [markGo_cons_other ls hsp hp hne] at h2 ⊢
          dsimp only at h2 ⊢
          rw [ih (fun x hx => hbad x (List.mem_cons_of_mem _ hx)) h2]

/-! ## Stability of the rewritten line under reprocessing -/

lemma markText_of_stable {d : Bool} {X : Str}
    (h : endsWith X (str " -s") = d) : markText d X = X := by
  unfold markText
  by_cases hd : d = true
  · rw [if_pos hd, if_pos (h.trans hd)]
  · rw [if_neg hd, if_neg (fun hc => hd (h.symm.trans hc))]

lemma markText_stable (d : Bool) (T : Str) :
    endsWith (markText d T) (str " -s") = d := by
  unfold markText
  by_cases hd : d = true
  · rw [if_pos hd, hd]
    by_cases he : endsWith T (str " -s") = true
    · rw [if_pos he]; exact he
    · rw [if_neg he]; exact endsWith_append_self T (str " -s")
  · have hd' : d = false := by
      cases d with
      | false => rfl
      | true => exact absurd rfl hd
    rw [if_neg hd, hd']
    by_cases he : endsWith T (str " -s") = true
    · rw [if_pos he]; exact endsWith_trimEndMatches (by decide) T
    · rw [if_neg he]
      cases hb : endsWith T (str " -s") with
      | false => rfl
      | true => exact absurd hb he

lemma markText_trimStart {d : Bool} {T : Str} (hT : trimStart T = T)
    (hne : d = true → T ≠ []) : trimStart (markText d T) = markText d T := by
  unfold markText
  by_cases hd : d = true
  · rw [if_pos hd]
    by_cases he : endsWith T (str " -s") = true
    · rw [if_pos he]; exact hT
    · rw [if_neg he]
      cases hc : T with
      | nil => exact absurd hc (hne hd)
      | cons c cs =>
        have hcws : isWS c = false := trimStart_head_not_ws (hc ▸ hT)
        rw [List.cons_append]
        exact trimStart_cons_not_ws _ hcws
  · rw [if_neg hd]
    by_cases he : endsWith T (str " -s") = true
    · rw [if_pos he]
      obtain ⟨z, hz⟩ := trimEndMatches_isPrefixOf (str " -s") T
      cases hx : trimEndMatches (str " -s") T with
      | nil => rfl
      | cons c cs =>
        rw [hx] at hz
        have hT2 : trimStart ((c :: cs) ++ z) = (c :: cs) ++ z := by rw [hz]; exact hT
        rw [List.cons_append] at hT2
        exact trimStart_cons_not_ws _ (trimStart_head_not_ws hT2)
    · rw [if_neg he]; exact hT

lemma markGo_cons_markLineOut {k : Nat} {d : Bool} {T : Str} (ls : List Str)
    (hk : k < 2 ^ 64) (hT : trimStart T = T) (hne : d = true → T ≠ []) :
    markGo k d (markLineOut k d T :: ls)
      = (markLineOut k d T :: (markGo k d ls).1, true) := by
  have hsp : splitOnce '.' (markLineOut k d T)
      = some (natToStr k, ' ' :: markText d T) := splitOnce_canonLine' k (markText d T)
  have hparse : parseUsize (trim (natToStr k)) = some k := by
    rw [trim_natToStr]; exact parseUsize_natToStr hk
  rw [markGo_cons_matched ls hsp hparse]
  have hXt : trimStart (' ' :: markText d T) = markText d T := by
    rw [trimStart_cons_ws _ (by decide)]
    exact markText_trimStart hT hne
  rw [hXt]
  have hidem : markText d (markText d T) = markText d T :=
    markText_of_stable (markText_stable d T)
  rw [show markLineOut k d (markText d T)
      = natToStr k ++ str ". " ++ markText d (markText d T) from rfl, hidem]
  exact rfl

lemma markGo_reprocess (k : Nat) (d : Bool) (L : List Str)
    (hNE : ∀ l ∈ L, ∀ idx r, splitOnce '.' l = some (idx, r) →
        parseUsize (trim idx) = some k → d = true → trimStart r ≠ []) :
    markGo k d ((markGo k d L).1) = markGo k d L := by
  induction L with
  | nil => rfl
  | cons l ls ih =>
    have ih' := ih (fun x hx => hNE x (List.mem_cons_of_mem _ hx))
    cases hsp : splitOnce '.' l with
    | none =>
      rw [markGo_cons_noperiod ls hsp]
      dsimp only
      rw [markGo_cons_noperiod _ hsp, ih']
    | some ab =>
      obtain ⟨idx, r⟩ := ab
      cases hp : parseUsize (trim idx) with
      | none =>
        rw [markGo_cons_bad ls hsp hp]
        exact ih'
      | some num =>
        by_cases hne : num = k
        · rw [hne] at hp
          rw [markGo_cons_matched ls hsp hp]
          dsimp only
          rw [markGo_cons_markLineOut _ (parseUsize_lt hp) (trimStart_idem r)
            (fun hd => hNE l (List.mem_cons_self _ _) idx r hsp hp hd), ih']
        · rw [markGo_cons_other ls hsp hp hne]
          dsimp only
          rw [markGo_cons_other _ hsp hp hne, ih']

/-! ## Provenance of the rewritten lines -/

lemma markGo_out_lines {k : Nat} {d : Bool} {L : List Str} :
    ∀ m ∈ (markGo k d L).1, m ∈ L ∨
      ∃ l ∈ L, ∃ idx r, splitOnce '.' l = some (idx, r) ∧
        parseUsize (trim idx) = some k ∧ m = markLineOut k d (trimStart r) := by
  induction L with
  | nil => intro m hm; simp [markGo] at hm
  | cons l ls ih =>
    intro m hm
    cases hsp : splitOnce '.' l with
    | none =>
      rw [markGo_cons_noperiod ls hsp] at hm
      dsimp only at hm
      rcases List.mem_cons.mp hm with rfl | hm'
      · exact .inl (List.mem_cons_self _ _)
      · rcases ih m hm' with h1 | ⟨l', hl', rest⟩
        · exact .inl (List.mem_cons_of_mem _ h1)
        · exact .inr ⟨l', List.mem_cons_of_mem _ hl', rest⟩
    | some ab =>
      obtain ⟨idx, r⟩ := ab
      cases hp : parseUsize (trim idx) with
      | none =>
        rw [markGo_cons_bad ls hsp hp] at hm
        rcases ih m hm with h1 | ⟨l', hl', rest⟩
        · exact .inl (List.mem_cons_of_mem _ h1)
        · exact .inr ⟨l', List.mem_cons_of_mem _ hl', rest⟩
      | some num =>
        by_cases hne : num = k
        · rw [hne] at hp
          rw [markGo_cons_matched ls hsp hp] at hm
          dsimp only at hm
          rcases List.mem_cons.mp hm with rfl | hm'
          · exact .inr ⟨l, List.mem_cons_self _ _, idx, r, hsp, hp, rfl⟩
          · rcases ih m hm' with h1 | ⟨l', hl', rest⟩
            · exact .inl (List.mem_cons_of_mem _ h1)
            · exact .inr ⟨l', List.mem_cons_of_mem _ hl', rest⟩
        · rw [markGo_cons_other ls hsp hp hne] at hm
          dsimp only at hm
          rcases List.mem_cons.mp hm with rfl | hm'
          · exact .inl (List.mem_cons_self _ _)
          · rcases ih m hm' with h1 | ⟨l', hl', rest⟩
            · exact .inl (List.mem_cons_of_mem _ h1)
            · exact .inr ⟨l', List.mem_cons_of_mem _ hl', rest⟩

lemma markText_chars {d : Bool} {T : Str} {c : Char} (h : c ∈ markText d T) :
    c ∈ T ∨ c ∈ str " -s" := by
  unfold markText at h
  by_cases hd : d = true
  · rw [if_pos hd] at h
    by_cases he : endsWith T (str " -s") = true
    · rw [if_pos he] at h; exact .inl h
    · rw [if_neg he] at h
      rcases List.mem_append.mp h with h1 | h2
      · exact .inl h1
      · exact .inr h2
  · rw [if_neg hd] at h
    by_cases he : endsWith T (str " -s") = true
    · rw [if_pos he] at h
      exact .inl ((trimEndMatches_isPrefixOf _ _).subset h)
    · rw [if_neg he] at h; exact .inl h

lemma markLineOut_chars {k : Nat} {d : Bool} {T : Str} {c : Char}
    (h : c ∈ markLineOut k d T) :
    (∃ dg, dg < 10 ∧ c = Nat.digitChar dg) ∨ c ∈ str ". " ∨ c ∈ T ∨ c ∈ str " -s" := by
  unfold markLineOut at h
  rcases List.mem_append.mp h with h1 | h2
  · rcases List.mem_append.mp h1 with ha | hb
    · exact .inl (natToStr_digits c ha)
    · exact .inr (.inl hb)
  · rcases markText_chars h2 with hT | hm
    · exact .inr (.inr (.inl hT))
    · exact .inr (.inr (.inr hm))

lemma markGo_out_good {k : Nat} {d : Bool} {c : Str}
    (hCR : ∀ ch ∈ c, ch ≠ '\r') :
    ∀ m ∈ (markGo k d (rustLines c)).1, '\n' ∉ m ∧ m.getLast? ≠ some '\r' := by
  intro m hm
  rcases markGo_out_lines m hm with hmem | ⟨l, hl, idx, r, hsp, _hp, rfl⟩
  · refine ⟨rustLines_no_newline m hmem, fun hg => ?_⟩
    exact hCR '\r' (rustLines_chars m hmem '\r' (mem_of_getLast' hg)) rfl
  · have hchars : ∀ ch ∈ markLineOut k d (trimStart r), ch ≠ '\n' ∧ ch ≠ '\r' := by
      intro ch hch
      rcases markLineOut_chars hch with ⟨dg, hdg, rfl⟩ | h2 | h3 | h4
      · exact ⟨(digitChar_props hdg).2.2.2.2.2.1, (digitChar_props hdg).2.2.2.2.2.2⟩
      · have h2' : ch = '.' ∨ ch = ' ' := by
          rw [show str ". " = ['.', ' '] from rfl] at h2
          simpa using h2
        rcases h2' with rfl | rfl
        · exact ⟨by decide, by decide⟩
        · exact ⟨by decide, by decide⟩
      · have hr : ch ∈ r := (trimStart_suffix r).subset h3
        have hl2 : ch ∈ l := by
          rw [splitOnce_eq_some hsp]
          exact List.mem_append_right _ (List.mem_cons_of_mem _ hr)
        have hcc : ch ∈ c := rustLines_chars l hl ch hl2
        refine ⟨fun he => ?_, hCR ch hcc⟩
        exact rustLines_no_newline l hl (he ▸ hl2)
      · have h4' : ch = ' ' ∨ ch = '-' ∨ ch = 's' := by
          rw [show str " -s" = [' ', '-', 's'] from rfl] at h4
          simpa using h4
        rcases h4' with rfl | rfl | rfl
        · exact ⟨by decide, by decide⟩
        · exact ⟨by decide, by decide⟩
        · exact ⟨by decide, by decide⟩
    exact ⟨fun hmem => (hchars '\n' hmem).1 rfl,
      fun hg => (hchars '\r' (mem_of_getLast' hg)).2 rfl⟩

/-! ## Extractors for the Boolean side conditions -/

lemma noCR_chars {c : Str} (h : noCR c = true) : ∀ ch ∈ c, ch ≠ '\r' := by
  intro ch hch
  have h2 := List.all_eq_true.mp h ch hch
  simpa using h2

lemma matchedNonempty_prop {k : Nat} {c : Str} (h : matchedNonempty k c = true) :
    ∀ l ∈ rustLines c, ∀ idx r, splitOnce '.' l = some (idx, r) →
      parseUsize (trim idx) = some k → trimStart r ≠ [] := by
  intro l hl idx r hsp hp
  have h2 := List.all_eq_true.mp h l hl
  simp only [hsp, hp, if_pos rfl] at h2
  intro he
  rw [he] at h2
  simp at h2

lemma normalStore_parts {c : Str} (h : normalStore c = true) :
    joinNL (rustLines c) = c ∧ ∀ l ∈ rustLines c, badIndexLine l = false := by
  unfold normalStore at h
  rw [Bool.and_eq_true] at h
  refine ⟨of_decide_eq_true h.1, fun l hl => ?_⟩
  have h2 := List.all_eq_true.mp h.2 l hl
  simpa using h2

/-! ## The claims -/

/-- Claim C1 (code-bug witness): `append_to_list` does not append.  The file
is opened with `write=true, append=false` (main.rs:188), so `write_all`
writes at offset 0: on the file `"1. aaaa\n"`, adding the message `"b"`
produces `"2. b\naa\n"` — the first five bytes of the existing content are
overwritten — instead of the `"1. aaaa\n2. b\n"` that appending (as the
claim, the function's name and the file-header comment describe) would
produce. -/
theorem add_overwrites_existing_content :
    append_to_list (str "b") (str "1. aaaa\n") = str "2. b\naa\n" ∧
    append_to_list (str "b") (str "1. aaaa\n") ≠ str "1. aaaa\n" ++ str "2. b\n" :=
  ⟨by decide, by decide⟩

/-- Claim C2 counterexample: on the file `"1. a\nabc. hello\n"`, Remove(1)
matches line 1 and rewrites the file; the line `"abc. hello"` contains a
period with a non-integer prefix, and instead of being preserved verbatim it
is dropped — the resulting file is empty.  `mark_as_done` drops it the same
way. -/
theorem unparsable_period_line_dropped :
    remove_from_list 1 (str "1. a\nabc. hello\n") = (str "", true) ∧
    mark_as_done 1 true (str "1. a\nabc. hello\n") = (str "1. a -s\n", true) :=
  ⟨by decide, by decide⟩

/-- Claim C2 (amended): Remove and SetDone preserve verbatim, in their
original order, exactly the lines that contain no period at all; lines that
contain a period whose prefix before the first period does not parse as an
unsigned integer are dropped from the rewritten content (with Remove leaving
the whole file untouched when no line matched). -/
theorem mutations_preserve_only_period_free_lines (k : Nat) (d : Bool) (c : Str) :
    ((markGo k d (rustLines c)).1.filter noPeriodLine
        = (rustLines c).filter noPeriodLine ∧
      (markGo k d (rustLines c)).1.filter badIndexLine = []) ∧
    ((removeGo k (rustLines c)).1.filter noPeriodLine
        = (rustLines c).filter noPeriodLine ∧
      (removeGo k (rustLines c)).1.filter badIndexLine = []) ∧
    mark_as_done k d c
      = (joinNL (markGo k d (rustLines c)).1, (markGo k d (rustLines c)).2) ∧
    (remove_from_list k c = (joinNL (removeGo k (rustLines c)).1, true) ∨
      remove_from_list k c = (c, false)) := by
  refine ⟨⟨markGo_filter_noPeriod k d _, markGo_filter_bad k d _⟩,
    ⟨removeGo_filter_noPeriod k _, removeGo_filter_bad k _⟩, rfl, ?_⟩
  by_cases hf : (removeGo k (rustLines c)).2 = true
  · left
    simp only [remove_from_list]
    rw [if_pos hf]
  · right
    simp only [remove_from_list]
    rw [if_neg hf]

/-- Claim C3 counterexample: on the file `"x. a\n"` no line parses an index,
so SetDone(1, true) reports not-found — but the unconditional rewrite drops
the unparsable line, leaving an empty file instead of identical content. -/
theorem setdone_notfound_rewrites_file :
    mark_as_done 1 true (str "x. a\n") = (str "", false) ∧
    (str "" : Str) ≠ str "x. a\n" :=
  ⟨by decide, by decide⟩

/-- Claim C3 (amended): when no line parses to the target index, Remove
reports not-found and returns before rewriting, so the file is byte-identical;
SetDone reports not-found but still rewrites the file, and the stored bytes
are preserved exactly when the file is already in serialized normal form
(it re-serializes to itself and has no unparsable-period line). -/
theorem notfound_keeps_content (k : Nat) (d : Bool) (c : Str) :
    ((remove_from_list k c).2 = false → (remove_from_list k c).1 = c) ∧
    ((mark_as_done k d c).2 = false → normalStore c = true →
      (mark_as_done k d c).1 = c) := by
  constructor
  · intro h2
    simp only [remove_from_list] at h2 ⊢
    by_cases hf : (removeGo k (rustLines c)).2 = true
    · rw [if_pos hf] at h2
      simp at h2
    · rw [if_neg hf]
  · intro h2 hn
    obtain ⟨hj, hbad⟩ := normalStore_parts hn
    simp only [mark_as_done] at h2 ⊢
    rw [markGo_not_found hbad h2, hj]

/-- Witness for the amended C3 at a concrete input: Remove(5) and
SetDone(5, true) on the single-record file `"1. a\n"` report not-found and
leave the stored content identical. -/
theorem notfound_keeps_content_witness :
    (remove_from_list 5 (str "1. a\n")).1 = str "1. a\n" ∧
    (mark_as_done 5 true (str "1. a\n")).1 = str "1. a\n" :=
  ⟨(notfound_keeps_content 5 true (str "1. a\n")).1 (by decide),
   (notfound_keeps_content 5 true (str "1. a\n")).2 (by decide) (by decide)⟩

/-- Claim C4 counterexample: the matched line is NOT left byte-for-byte
unchanged when the marker is already in the requested state.  On
`"1.  a\n"` (two spaces), SetDone(1, false) — no marker present, so the
claim says the line is untouched — re-renders the line as `"1. a\n"`,
collapsing the spacing. -/
theorem setdone_rewrites_noncanonical_line :
    mark_as_done 1 false (str "1.  a\n") = (str "1. a\n", true) ∧
    (str "1. a\n" : Str) ≠ str "1.  a\n" :=
  ⟨by decide, by decide⟩

/-- Claim C4 (amended): a matched line is re-rendered as the parsed index in
canonical decimal, a period and a single space, then `markText` of the
leading-whitespace-trimmed remainder: done=true appends `" -s"` exactly when
the trimmed text does not already end with it; done=false strips the
trailing `" -s"` repetitions exactly when one is present; and a matched line
that is already canonical (`"<k>. <T>"` with `T` trimmed) whose marker is
already in the requested state is kept byte-for-byte identical.
Non-canonical matched lines are rewritten even in the already-in-state
cases. -/
theorem setdone_marker_update (k : Nat) (d : Bool) (l idx r T : Str) (ls : List Str) :
    (splitOnce '.' l = some (idx, r) → parseUsize (trim idx) = some k →
      markGo k d (l :: ls)
        = (markLineOut k d (trimStart r) :: (markGo k d ls).1, true)) ∧
    (endsWith T (str " -s") = true → markText true T = T) ∧
    (endsWith T (str " -s") = false → markText true T = T ++ str " -s") ∧
    (endsWith T (str " -s") = true →
      markText false T = trimEndMatches (str " -s") T) ∧
    (endsWith T (str " -s") = false → markText false T = T) ∧
    (trimStart T = T → endsWith T (str " -s") = d → k < 2 ^ 64 →
      markGo k d ((natToStr k ++ str ". " ++ T) :: ls)
        = ((natToStr k ++ str ". " ++ T) :: (markGo k d ls).1, true)) := by
  refine ⟨fun hsp hp => markGo_cons_matched ls hsp hp, ?_, ?_, ?_, ?_, ?_⟩
  · intro he
    unfold markText
    rw [if_pos rfl, if_pos he]
  · intro he
    unfold markText
    rw [if_pos rfl, if_neg (by rw [he]; simp)]
  · intro he
    unfold markText
    rw [if_neg (by simp), if_pos he]
  · intro he
    unfold markText
    rw [if_neg (by simp), if_neg (by rw [he]; simp)]
  · intro hT hst hk
    rw [markGo_cons_matched ls (splitOnce_canonLine' k T)
      (by rw [trim_natToStr]; exact parseUsize_natToStr hk)]
    rw [show trimStart (' ' :: T) = T from by
      rw [trimStart_cons_ws _ (by decide)]; exact hT]
    rw [show markLineOut k d T = natToStr k ++ str ". " ++ markText d T from rfl,
      markText_of_stable hst]

/-- Witness for the amended C4 at concrete inputs: marking `"1. a"` done
appends the marker; marking the canonical, unmarked `"1. a"` undone keeps
the line byte-identical. -/
theorem setdone_marker_update_witness :
    markGo 1 true [str "1. a"] = ([str "1. a -s"], true) ∧
    markText true (str "a") = str "a" ++ str " -s" ∧
    markGo 1 false [str "1. a"] = ([str "1. a"], true) := by
  refine ⟨?_, ?_, ?_⟩
  · have h := (setdone_marker_update 1 true (str "1. a") (str "1") (str " a")
      (str "a") []).1 (by decide) (by decide)
    rw [h]
    decide
  · exact (setdone_marker_update 1 true (str "1. a") (str "1") (str " a")
      (str "a") []).2.2.1 (by decide)
  · have h := (setdone_marker_update 1 false (str "1. a") (str "1") (str " a")
      (str "a") []).2.2.2.2.2 (by decide) (by decide) (by decide)
    have he : (natToStr 1 ++ str ". " ++ str "a") = str "1. a" := by decide
    rw [he] at h
    rw [h]
    decide

/-- Claim C5 counterexample: removed indices CAN be reused.  Add on the
empty store assigns index 1 and stores `"1. a\n"`; Remove(1) empties the
file; the next Add assigns index 1 again — the index of the removed record
is reused. -/
theorem removed_index_reused :
    append_to_list (str "a") (str "") = str "1. a\n" ∧
    remove_from_list 1 (str "1. a\n") = (str "", true) ∧
    append_to_list (str "c") (str "") = str "1. c\n" ∧
    lineIndex (str "1. a") = some 1 :=
  ⟨by decide, by decide, by decide, by decide⟩

/-- Claim C5 (amended): the index assigned to a new record is
`find_next_index` = (1 + the maximum of the parsed leading indices of the
current file content, default 0) reduced modulo 2^64 — the source computes
`max_index + 1` in `usize` arithmetic, which wraps to 0 in a release build
when the maximum present index is `usize::MAX` (a debug build panics on
that overflow).  Whenever the sum does not wrap — the maximum present index
is below `usize::MAX` — the assigned index is strictly greater than every
index currently present.  Indices of removed records are NOT never-reused:
removing the maximum index makes the same index be assigned again (see the
counterexample). -/
theorem next_index_is_max_plus_one (c : Str) :
    find_next_index c
      = (((rustLines c).filterMap lineIndex).foldr max 0 + 1) % 2 ^ 64 ∧
    (((rustLines c).filterMap lineIndex).foldr max 0 + 1 < 2 ^ 64 →
      belowNext c = true) ∧
    find_next_index (str "18446744073709551615. x\n") = 0 := by
  have h1 : find_next_index c
      = (((rustLines c).filterMap lineIndex).foldr max 0 + 1) % 2 ^ 64 := by
    unfold find_next_index
    rw [maxIndexGo_eq, Nat.max_eq_right (Nat.zero_le _)]
  refine ⟨h1, ?_, by decide⟩
  intro hlt
  unfold belowNext
  rw [List.all_eq_true]
  intro l hl
  cases hli : lineIndex l with
  | none => simp [hli]
  | some j =>
    simp only [hli, decide_eq_true_eq]
    rw [h1, Nat.mod_eq_of_lt hlt]
    have hmem : j ∈ (rustLines c).filterMap lineIndex :=
      List.mem_filterMap.mpr ⟨l, hl, hli⟩
    have := mem_le_foldr_max hmem
    omega

/-- Witness for the amended C5 at a concrete input: on `"1. a\n"` the
maximum present index is 1, the `usize` sum does not wrap, and every
present index is strictly below the assigned `find_next_index`. -/
theorem next_index_is_max_plus_one_witness :
    ((rustLines (str "1. a\n")).filterMap lineIndex).foldr max 0 + 1 < 2 ^ 64 ∧
    belowNext (str "1. a\n") = true :=
  ⟨by decide, (next_index_is_max_plus_one (str "1. a\n")).2.1 (by decide)⟩

/-- Claim C6 counterexample: SetDone(1, true) is not idempotent on a record
with empty text.  On `"1. \n"` the first call stores `"1.  -s\n"`;
re-parsing that line yields the text `"-s"`, which does not end in `" -s"`,
so the second call appends another marker and stores `"1. -s -s\n"`. -/
theorem setdone_true_not_idempotent :
    (mark_as_done 1 true (str "1. \n")).1 = str "1.  -s\n" ∧
    (mark_as_done 1 true (str "1.  -s\n")).1 = str "1. -s -s\n" ∧
    (str "1. -s -s\n" : Str) ≠ str "1.  -s\n" :=
  ⟨by decide, by decide, by decide⟩

/-- Claim C6 (amended): SetDone applied twice stores the same content as
applied once, provided the file contains no carriage return and — for
done=true — every line whose parsed index is the target has nonempty
trimmed text (SetDone(i, false) needs no text condition). -/
theorem setdone_idempotent (k : Nat) (d : Bool) (c : Str)
    (hcr : noCR c = true) (hne : d = true → matchedNonempty k c = true) :
    (mark_as_done k d ((mark_as_done k d c).1)).1 = (mark_as_done k d c).1 := by
  have hCR := noCR_chars hcr
  have hlines : rustLines (joinNL (markGo k d (rustLines c)).1)
      = (markGo k d (rustLines c)).1 :=
    rustLines_joinNL (markGo_out_good hCR)
  simp only [mark_as_done]
  rw [hlines]
  rw [markGo_reprocess k d _ (fun l hl idx r hsp hp hd =>
    matchedNonempty_prop (hne hd) l hl idx r hsp hp)]

/-- Witness for the amended C6 at a concrete input: marking `"1. a\n"` done
twice stores the same bytes as marking it done once. -/
theorem setdone_idempotent_witness :
    (mark_as_done 1 true ((mark_as_done 1 true (str "1. a\n")).1)).1
      = (mark_as_done 1 true (str "1. a\n")).1 :=
  setdone_idempotent 1 true (str "1. a\n") (by decide) (fun _ => by decide)

/-- Claim C7: Remove(k) preserves every record line whose parsed index is
not k, byte-for-byte and in their original relative order: the pushed lines
restricted to such records equal the original such records, and the
operation either writes exactly the pushed lines (found) or leaves the file
untouched (not found). -/
theorem remove_preserves_other_records (k : Nat) (c : Str) :
    (removeGo k (rustLines c)).1.filter (isRecordNot k)
        = (rustLines c).filter (isRecordNot k) ∧
    (remove_from_list k c = (joinNL (removeGo k (rustLines c)).1, true) ∨
      remove_from_list k c = (c, false)) := by
  refine ⟨removeGo_filter_record k (rustLines c), ?_⟩
  by_cases hf : (removeGo k (rustLines c)).2 = true
  · left
    simp only [remove_from_list]
    rw [if_pos hf]
  · right
    simp only [remove_from_list]
    rw [if_neg hf]

/-- Claim C8: Render processes lines in file order, splitting each at the
first space; lines with no space are silently dropped; a remainder ending in
the done-marker `-s` has the marker stripped and the text wrapped in the
strikethrough escape; otherwise the trimmed remainder passes through —
`parse_list_content` coincides with the specification-shaped `renderSpec`. -/
theorem render_matches_spec (c : Str) : parse_list_content c = renderSpec c :=
  plGo_eq (rustLines c)

/-- Claim C9: one SetDone(k, false) call strips ALL trailing repetitions of
the `" -s"` marker from the matched line at once (Rust `trim_end_matches`
removes every trailing copy, not just the last). -/
theorem undone_strips_all_marker_reps (k n : Nat) (c l idx r t : Str)
    (hc : rustLines c = [l])
    (hsp : splitOnce '.' l = some (idx, r))
    (hp : parseUsize (trim idx) = some k)
    (ht : trimStart r = t ++ markerReps n)
    (hte : endsWith t (str " -s") = false)
    (hn : 1 ≤ n) :
    mark_as_done k false c = (natToStr k ++ str ". " ++ t ++ ['\n'], true) := by
  simp only [mark_as_done]
  rw [hc, markGo_cons_matched [] hsp hp]
  dsimp only
  rw [show (markGo k false ([] : List Str)).1 = [] from rfl, ht]
  have hew : endsWith (t ++ markerReps n) (str " -s") = true :=
    endsWith_markerReps t hn
  have hstrip : trimEndMatches (str " -s") (t ++ markerReps n) = t := by
    rw [trimEndMatches_markerReps, trimEndMatches_of_not_endsWith hte]
  rw [show markLineOut k false (t ++ markerReps n)
      = natToStr k ++ str ". " ++ markText false (t ++ markerReps n) from rfl]
  rw [show markText false (t ++ markerReps n)
      = trimEndMatches (str " -s") (t ++ markerReps n) from by
    unfold markText
    rw [if_neg (by simp), if_pos hew]]
  rw [hstrip]
  simp [joinNL]

/-- Witness for C9 at a concrete input: `"1. a -s -s\n"` with two marker
copies is stripped to `"1. a\n"` by a single undone call. -/
theorem undone_strips_all_marker_reps_witness :
    mark_as_done 1 false (str "1. a -s -s\n") = (str "1. a\n", true) := by
  have h := undone_strips_all_marker_reps 1 2 (str "1. a -s -s\n")
    (str "1. a -s -s") (str "1") (str " a -s -s") (str "a")
    (by decide) (by decide) (by decide) (by decide) (by decide) (by decide)
  rw [h]
  decide

/-- Claim C10: the panic guard of `get_file` (both `write` and `append`
false) is unreachable: every call site in the program passes write=true, so
no command execution can trigger it. -/
theorem get_file_panic_unreachable :
    get_file_call_sites.all (fun m => !get_file_panics m) = true := by decide

end Todo
